import Mathlib

/-!
Verification of the price aggregation engine (`src/price_aggregator.py`).

Python floats are modelled as rationals (ℚ); `round(x, n)` is modelled as
round-half-to-even at `n` decimal places, matching Python's rounding mode.
A source quote dictionary is modelled by the `Quote` structure: `price_usd`
is `none` when the key is absent or `None`, `confidence` is `none` when the
adapter did not supply one (the code then defaults it to 0.5 via `dict.get`).
-/

/-- Round-half-to-even of a rational to an integer (Python's rounding mode). -/
def roundHalfEven (x : ℚ) : ℤ :=
  let f := ⌊x⌋
  let r := x - f
  if r < 1/2 then f
  else if 1/2 < r then f + 1
  else if f % 2 = 0 then f else f + 1

/-- Python's `round(x, n)`: round to `n` decimal places, half to even. -/
def roundTo (n : ℕ) (x : ℚ) : ℚ :=
  (roundHalfEven (x * 10 ^ n) : ℚ) / 10 ^ n

/-- A normalized source quote (one element of `source_prices`). -/
structure Quote where
  source : String
  price_usd : Option ℚ
  confidence : Option ℚ
  error : Option String
deriving DecidableEq

/-- The `price_range` dictionary of a `PriceResult`. -/
structure PriceRange where
  min : ℚ
  max : ℚ
  spread_percent : ℚ
deriving DecidableEq

/-- The `PriceResult` dataclass. -/
structure PriceResult where
  token_address : String
  chain_id : ℤ
  price_usd : ℚ
  confidence : ℚ
  sources_count : ℕ
  price_range : PriceRange
  sources : List Quote
  warnings : List String
  timestamp : String
deriving DecidableEq

/-- `PriceAggregator.MAX_SPREAD_PCT`. -/
def MAX_SPREAD_PCT : ℚ := 5

/-- The validity filter of `aggregate_prices`:
`s.get("price_usd") is not None and s.get("price_usd") > 0`. -/
def validQuote (s : Quote) : Bool :=
  match s.price_usd with
  | some p => decide (0 < p)
  | none => false

/-- Python's `statistics.median`: sort, take the middle element (odd length)
or the mean of the two middle elements (even length). -/
def pymedian (l : List ℚ) : ℚ :=
  let s := l.insertionSort (· ≤ ·)
  let n := s.length
  if n % 2 = 1 then s.getD (n / 2) 0
  else (s.getD (n / 2 - 1) 0 + s.getD (n / 2) 0) / 2

/-- Python's `min` over a nonempty list (0 on the empty list, unreachable). -/
def listMin (l : List ℚ) : ℚ :=
  match l with
  | [] => 0
  | x :: xs => xs.foldl min x

/-- Python's `max` over a nonempty list (0 on the empty list, unreachable). -/
def listMax (l : List ℚ) : ℚ :=
  match l with
  | [] => 0
  | x :: xs => xs.foldl max x

/-- `PriceAggregator._calculate_weighted_price`. -/
def calculateWeightedPrice (prices confidences : List ℚ) : ℚ :=
  if prices = [] then 0
  else
    let weightedSum := ((prices.zip confidences).map (fun pc => pc.1 * pc.2)).sum
    let totalWeight := confidences.sum
    if totalWeight = 0 then pymedian prices
    else weightedSum / totalWeight

/-- `PriceAggregator._calculate_confidence`. -/
def calculateConfidence (prices confidences : List ℚ) (spreadPct : ℚ) : ℚ :=
  let baseConfidence := pymedian confidences
  let sourceBonus := min (1/10 * (prices.length : ℚ)) (2/10)
  let spreadPenalty :=
    if MAX_SPREAD_PCT < spreadPct then min ((spreadPct - MAX_SPREAD_PCT) / 100) (3/10)
    else 0
  max (1/10) (min 1 (baseConfidence + sourceBonus - spreadPenalty))

/-- Render a rational with one decimal digit, as Python's `f"{x:.1f}"`. -/
def formatFixed1 (x : ℚ) : String :=
  let y : ℤ := roundHalfEven (x * 10)
  let sgn := if y < 0 then "-" else ""
  let n := y.natAbs
  sgn ++ toString (n / 10) ++ "." ++ toString (n % 10)

/-- `PriceAggregator._generate_warnings`. -/
def generateWarnings (spreadPct : ℚ) (validSources totalSources : ℕ) : List String :=
  (if MAX_SPREAD_PCT < spreadPct then
    ["⚠️ High price spread: " ++ formatFixed1 spreadPct ++ "% between sources"]
   else [])
  ++ (if 15 < spreadPct then
    ["🚨 VERY HIGH SPREAD - Price may be unreliable or arbitrage opportunity"]
   else [])
  ++ (if validSources = 1 then
    ["ℹ️ Single price source - confidence reduced"]
   else [])
  ++ (if validSources < totalSources then
    ["ℹ️ " ++ toString (totalSources - validSources) ++ " source(s) failed to provide price"]
   else [])
  ++ (if validSources = 0 then
    ["🚫 No valid price data available"]
   else [])

/-- `PriceAggregator._create_error_result`. -/
def createErrorResult (tokenAddress : String) (chainId : ℤ) (errorMsg : String)
    (sourcePrices : List Quote) : PriceResult :=
  { token_address := tokenAddress
    chain_id := chainId
    price_usd := 0
    confidence := 0
    sources_count := 0
    price_range := { min := 0, max := 0, spread_percent := 0 }
    sources := sourcePrices
    warnings := ["🚫 " ++ errorMsg]
    timestamp := "" }

/-- The local `prices = [s["price_usd"] for s in valid_sources]` of
`aggregate_prices` (`price_usd` is present and positive on every valid quote,
so the `getD 0` default is never taken). -/
def pricesOf (validSources : List Quote) : List ℚ :=
  validSources.map (fun s => s.price_usd.getD 0)

/-- The local `confidences = [s.get("confidence", 0.5) for s in valid_sources]`. -/
def confidencesOf (validSources : List Quote) : List ℚ :=
  validSources.map (fun s => s.confidence.getD (1/2))

/-- The local `final_price` of `aggregate_prices`: the single price when one
source is valid, else the confidence-weighted price. -/
def finalPriceOf (prices confidences : List ℚ) : ℚ :=
  if prices.length = 1 then prices.headD 0
  else calculateWeightedPrice prices confidences

/-- The local `price_min` of `aggregate_prices`. -/
def priceMinOf (prices : List ℚ) : ℚ :=
  if prices.length = 1 then prices.headD 0 else listMin prices

/-- The local `price_max` of `aggregate_prices`. -/
def priceMaxOf (prices : List ℚ) : ℚ :=
  if prices.length = 1 then prices.headD 0 else listMax prices

/-- The local `spread_pct` of `aggregate_prices`: 0 for a single source, else
`((price_max - price_min) / final_price) * 100` guarded by `final_price > 0`. -/
def spreadPctOf (prices confidences : List ℚ) : ℚ :=
  if prices.length = 1 then 0
  else if 0 < finalPriceOf prices confidences then
    ((priceMaxOf prices - priceMinOf prices) / finalPriceOf prices confidences) * 100
  else 0

/-- The local `confidence` of `aggregate_prices`: `confidences[0] * 0.8` for a
single source, else `_calculate_confidence`. -/
def confidenceOf (prices confidences : List ℚ) : ℚ :=
  if prices.length = 1 then confidences.headD 0 * (8/10)
  else calculateConfidence prices confidences (spreadPctOf prices confidences)

/-- Division, raising (`none`) on a zero divisor, as Python's `/`.  The
`...Opt` definitions model every Python operation of the aggregator that can
raise an exception — `statistics.median` of an empty list, division by zero,
indexing `[0]` into an empty list, `min`/`max` of an empty sequence — so that
"the engine never raises" becomes a provable statement. -/
def qdivOpt (a b : ℚ) : Option ℚ :=
  if b = 0 then none else some (a / b)

/-- `statistics.median`, raising (`none`) on an empty list. -/
def pymedianOpt (l : List ℚ) : Option ℚ :=
  if l.isEmpty then none else some (pymedian l)

/-- Python's `min`, raising (`none`) on an empty sequence. -/
def listMinOpt (l : List ℚ) : Option ℚ :=
  if l.isEmpty then none else some (listMin l)

/-- Python's `max`, raising (`none`) on an empty sequence. -/
def listMaxOpt (l : List ℚ) : Option ℚ :=
  if l.isEmpty then none else some (listMax l)

/-- `PriceAggregator.aggregate_prices`. -/
def aggregatePrices (tokenAddress : String) (chainId : ℤ)
    (sourcePrices : List Quote) : PriceResult :=
  let validSources := sourcePrices.filter validQuote
  if validSources.isEmpty then
    createErrorResult tokenAddress chainId "No valid price sources available" sourcePrices
  else
    let prices := pricesOf validSources
    let confidences := confidencesOf validSources
    { token_address := tokenAddress
      chain_id := chainId
      price_usd := roundTo 6 (finalPriceOf prices confidences)
      confidence := roundTo 3 (confidenceOf prices confidences)
      sources_count := validSources.length
      price_range :=
        { min := roundTo 6 (priceMinOf prices)
          max := roundTo 6 (priceMaxOf prices)
          spread_percent := roundTo 2 (spreadPctOf prices confidences) }
      sources := validSources
      warnings := generateWarnings (spreadPctOf prices confidences)
        validSources.length sourcePrices.length
      timestamp := "" }

/-- `_calculate_weighted_price` with its potentially-raising operations made
explicit (`median` on an empty list, division by zero). -/
def calculateWeightedPriceOpt (prices confidences : List ℚ) : Option ℚ :=
  if prices = [] then some 0
  else
    let weightedSum := ((prices.zip confidences).map (fun pc => pc.1 * pc.2)).sum
    let totalWeight := confidences.sum
    if totalWeight = 0 then pymedianOpt prices
    else qdivOpt weightedSum totalWeight

/-- `_calculate_confidence` with its potentially-raising `median` explicit. -/
def calculateConfidenceOpt (prices confidences : List ℚ) (spreadPct : ℚ) : Option ℚ :=
  (pymedianOpt confidences).map (fun baseConfidence =>
    let sourceBonus := min (1/10 * (prices.length : ℚ)) (2/10)
    let spreadPenalty :=
      if MAX_SPREAD_PCT < spreadPct then min ((spreadPct - MAX_SPREAD_PCT) / 100) (3/10)
      else 0
    max (1/10) (min 1 (baseConfidence + sourceBonus - spreadPenalty)))

/-- `aggregate_prices` with every potentially-raising operation explicit:
`none` models an uncaught Python exception escaping the call. -/
def aggregatePricesOpt (tokenAddress : String) (chainId : ℤ)
    (sourcePrices : List Quote) : Option PriceResult :=
  let validSources := sourcePrices.filter validQuote
  if validSources.isEmpty then
    some (createErrorResult tokenAddress chainId "No valid price sources available" sourcePrices)
  else
    let prices := pricesOf validSources
    let confidences := confidencesOf validSources
    (if prices.length = 1 then
      prices.head?.bind (fun p =>
        confidences.head?.map (fun c => (p, p, p, (0 : ℚ), c * (8/10))))
     else
      (calculateWeightedPriceOpt prices confidences).bind (fun finalPrice =>
      (listMinOpt prices).bind (fun priceMin =>
      (listMaxOpt prices).bind (fun priceMax =>
      (if 0 < finalPrice then
          (qdivOpt (priceMax - priceMin) finalPrice).map (· * 100)
        else some 0).bind (fun spreadPct =>
      (calculateConfidenceOpt prices confidences spreadPct).map (fun confidence =>
        (finalPrice, priceMin, priceMax, spreadPct, confidence))))))
    ).map (fun v =>
      { token_address := tokenAddress
        chain_id := chainId
        price_usd := roundTo 6 v.1
        confidence := roundTo 3 v.2.2.2.2
        sources_count := validSources.length
        price_range :=
          { min := roundTo 6 v.2.1
            max := roundTo 6 v.2.2.1
            spread_percent := roundTo 2 v.2.2.2.1 }
        sources := validSources
        warnings := generateWarnings v.2.2.2.1 validSources.length sourcePrices.length
        timestamp := "" })

/-! ### Helper lemmas about rounding -/

/-- `roundHalfEven` of an integer is that integer. -/
theorem roundHalfEven_intCast (z : ℤ) : roundHalfEven (z : ℚ) = z := by
  simp only [roundHalfEven, Int.floor_intCast, sub_self]
  norm_num

/-- `roundHalfEven` when the value lies in the lower half of its unit interval. -/
theorem roundHalfEven_of_lt_half (x : ℚ) (z : ℤ) (h1 : (z : ℚ) ≤ x)
    (h2 : x < (z : ℚ) + 1/2) : roundHalfEven x = z := by
  have hf : ⌊x⌋ = z := Int.floor_eq_iff.mpr ⟨h1, by linarith⟩
  have hr : x - (z : ℚ) < 1/2 := by linarith
  simp only [roundHalfEven, hf]
  rw [if_pos hr]

/-- `roundHalfEven` when the value lies in the upper half of its unit interval. -/
theorem roundHalfEven_of_gt_half (x : ℚ) (z : ℤ) (h1 : (z : ℚ) + 1/2 < x)
    (h2 : x < (z : ℚ) + 1) : roundHalfEven x = z + 1 := by
  have hf : ⌊x⌋ = z := Int.floor_eq_iff.mpr ⟨by linarith, by linarith⟩
  have hr1 : ¬ x - (z : ℚ) < 1/2 := by linarith
  have hr2 : (1:ℚ)/2 < x - (z : ℚ) := by linarith
  simp only [roundHalfEven, hf]
  rw [if_neg hr1, if_pos hr2]

/-- Evaluation of `roundTo` when `x * 10 ^ n` is an exact integer. -/
theorem roundTo_of_int (n : ℕ) (x : ℚ) (z : ℤ) (h : x * 10 ^ n = (z : ℚ)) :
    roundTo n x = (z : ℚ) / 10 ^ n := by
  rw [roundTo, h, roundHalfEven_intCast]

/-- Evaluation of `roundTo` in the round-down case. -/
theorem roundTo_of_lt_half (n : ℕ) (x : ℚ) (z : ℤ) (h1 : (z : ℚ) ≤ x * 10 ^ n)
    (h2 : x * 10 ^ n < (z : ℚ) + 1/2) : roundTo n x = (z : ℚ) / 10 ^ n := by
  rw [roundTo, roundHalfEven_of_lt_half _ z h1 h2]

/-- Evaluation of `roundTo` in the round-up case. -/
theorem roundTo_of_gt_half (n : ℕ) (x : ℚ) (z : ℤ) (h1 : (z : ℚ) + 1/2 < x * 10 ^ n)
    (h2 : x * 10 ^ n < (z : ℚ) + 1) : roundTo n x = ((z : ℚ) + 1) / 10 ^ n := by
  rw [roundTo, roundHalfEven_of_gt_half _ z h1 h2]; push_cast; ring_nf

/-- `roundTo` fixes 0. -/
theorem roundTo_zero (n : ℕ) : roundTo n 0 = 0 := by
  rw [show (0:ℚ) = ((0:ℤ):ℚ) by norm_num] at *
  rw [roundTo_of_int n _ 0 (by push_cast; ring)]
  norm_num

/-- The floor bounds `roundHalfEven` from below. -/
theorem floor_le_roundHalfEven (x : ℚ) : ⌊x⌋ ≤ roundHalfEven x := by
  simp only [roundHalfEven]
  split_ifs <;> omega

/-- An integer lower bound on the argument bounds `roundHalfEven` from below. -/
theorem intCast_le_roundHalfEven (a : ℤ) (x : ℚ) (h : (a : ℚ) ≤ x) :
    a ≤ roundHalfEven x :=
  le_trans (Int.le_floor.mpr h) (floor_le_roundHalfEven x)

/-- The ceiling bounds `roundHalfEven` from above. -/
theorem roundHalfEven_le_ceil (x : ℚ) : roundHalfEven x ≤ ⌈x⌉ := by
  rcases eq_or_lt_of_le (Int.floor_le x) with hfx | hfx
  · have hf : x - ((⌊x⌋ : ℤ) : ℚ) < 1/2 := by rw [← hfx]; norm_num
    simp only [roundHalfEven, if_pos hf]
    exact le_trans (le_of_eq rfl) (Int.floor_le_ceil x)
  · have hceil : ⌊x⌋ + 1 ≤ ⌈x⌉ := by
      have : ⌊x⌋ < ⌈x⌉ := by
        rw [Int.lt_ceil]; exact hfx
      omega
    simp only [roundHalfEven]
    split_ifs
    · exact le_trans (Int.floor_le_ceil x) (le_refl _)
    · exact hceil
    · omega
    · exact hceil

/-- An integer upper bound on the argument bounds `roundHalfEven` from above. -/
theorem roundHalfEven_le_intCast (a : ℤ) (x : ℚ) (h : x ≤ (a : ℚ)) :
    roundHalfEven x ≤ a :=
  le_trans (roundHalfEven_le_ceil x) (Int.ceil_le.mpr h)

/-- Arguments strictly above one half round to at least 1. -/
theorem one_le_roundHalfEven (x : ℚ) (h : 1/2 < x) : 1 ≤ roundHalfEven x := by
  have hge : (0:ℚ) ≤ x := by linarith
  have hf0 : 0 ≤ ⌊x⌋ := Int.floor_nonneg.mpr hge
  simp only [roundHalfEven]
  split_ifs with h1 h2 h3
  · -- fractional part below one half: the floor itself exceeds 0
    have hfx : (⌊x⌋ : ℚ) > 0 := by
      have := Int.floor_le x
      linarith
    exact_mod_cast Int.cast_pos.mp hfx
  · omega
  · -- exact tie with even floor: x = ⌊x⌋ + 1/2 > 1/2 forces ⌊x⌋ ≥ 1
    have htie : x - ((⌊x⌋ : ℤ) : ℚ) = 1/2 := le_antisymm (not_lt.mp h2) (not_lt.mp h1)
    have hfx : (0:ℚ) < (⌊x⌋ : ℚ) := by linarith
    exact_mod_cast Int.cast_pos.mp hfx
  · omega

/-! ### C2: zero valid sources produce the error result -/

/-- C2: if every input quote is invalid (price absent or nonpositive),
`aggregate_prices` returns price 0.0, confidence 0.0, sources_count 0,
price_range `{min: 0, max: 0, spread_percent: 0}`, `sources` equal to the full
original input list, and exactly the single critical no-valid-price-data
warning. -/
theorem aggregate_no_valid_error_result (t : String) (c : ℤ) (qs : List Quote)
    (h : ∀ q ∈ qs, validQuote q = false) :
    aggregatePrices t c qs =
      { token_address := t
        chain_id := c
        price_usd := 0
        confidence := 0
        sources_count := 0
        price_range := { min := 0, max := 0, spread_percent := 0 }
        sources := qs
        warnings := ["🚫 No valid price sources available"]
        timestamp := "" } := by
  have hf : qs.filter validQuote = [] :=
    List.filter_eq_nil_iff.mpr (fun a ha => by simp [h a ha])
  simp [aggregatePrices, hf, createErrorResult]

/-- Witness for C2: two failed quotes (absent price; zero price) yield the
error result. -/
theorem aggregate_no_valid_error_result_witness :
    (∀ q ∈ [⟨"coingecko", none, none, some "API timeout"⟩,
            ⟨"uniswap_v3", some 0, some (9/10), none⟩],
       validQuote q = false) ∧
    aggregatePrices "0xabc" 1
        [⟨"coingecko", none, none, some "API timeout"⟩,
         ⟨"uniswap_v3", some 0, some (9/10), none⟩] =
      { token_address := "0xabc"
        chain_id := 1
        price_usd := 0
        confidence := 0
        sources_count := 0
        price_range := { min := 0, max := 0, spread_percent := 0 }
        sources := [⟨"coingecko", none, none, some "API timeout"⟩,
                    ⟨"uniswap_v3", some 0, some (9/10), none⟩]
        warnings := ["🚫 No valid price sources available"]
        timestamp := "" } := by
  have h : ∀ q ∈ [(⟨"coingecko", none, none, some "API timeout"⟩ : Quote),
            ⟨"uniswap_v3", some 0, some (9/10), none⟩],
      validQuote q = false := by
    intro q hq
    simp only [List.mem_cons, List.not_mem_nil, or_false] at hq
    rcases hq with rfl | rfl
    · rfl
    · norm_num [validQuote]
  exact ⟨h, aggregate_no_valid_error_result "0xabc" 1 _ h⟩

/-! ### C5: single valid source -/

/-- C5: with exactly one valid quote of price `p` and confidence `cf`, the
result has consensus price `round(p, 6)`, price range collapsing to that price
with spread 0, confidence `round(cf * 0.8, 3)` (the single-source discount),
sources_count 1, and the single-source warning. -/
theorem aggregate_single_source (t : String) (c : ℤ) (qs : List Quote)
    (q : Quote) (p cf : ℚ)
    (hf : qs.filter validQuote = [q])
    (hp : q.price_usd = some p) (hc : q.confidence = some cf) :
    (aggregatePrices t c qs).price_usd = roundTo 6 p ∧
    (aggregatePrices t c qs).price_range =
      { min := roundTo 6 p, max := roundTo 6 p, spread_percent := 0 } ∧
    (aggregatePrices t c qs).confidence = roundTo 3 (cf * (8/10)) ∧
    (aggregatePrices t c qs).sources_count = 1 ∧
    "ℹ️ Single price source - confidence reduced" ∈ (aggregatePrices t c qs).warnings := by
  norm_num [aggregatePrices, hf, pricesOf, confidencesOf, hp, hc, finalPriceOf,
    priceMinOf, priceMaxOf, spreadPctOf, confidenceOf, generateWarnings,
    MAX_SPREAD_PCT, roundTo_zero]

/-- Witness for C5: the quote `{price=100, confidence=0.95}` alone yields
price 100.0, confidence 0.76, sources_count 1, and the single-source warning. -/
theorem aggregate_single_source_witness :
    ([(⟨"coingecko", some 100, some (19/20), none⟩ : Quote)].filter validQuote
        = [⟨"coingecko", some 100, some (19/20), none⟩]) ∧
    (aggregatePrices "0xabc" 1 [⟨"coingecko", some 100, some (19/20), none⟩]).price_usd
        = 100 ∧
    (aggregatePrices "0xabc" 1 [⟨"coingecko", some 100, some (19/20), none⟩]).confidence
        = 19/25 ∧
    (aggregatePrices "0xabc" 1 [⟨"coingecko", some 100, some (19/20), none⟩]).sources_count
        = 1 ∧
    "ℹ️ Single price source - confidence reduced" ∈
      (aggregatePrices "0xabc" 1 [⟨"coingecko", some 100, some (19/20), none⟩]).warnings := by
  have hfil : [(⟨"coingecko", some 100, some (19/20), none⟩ : Quote)].filter validQuote
      = [⟨"coingecko", some 100, some (19/20), none⟩] := by
    norm_num [List.filter, validQuote]
  obtain ⟨h1, h2, h3, h4, h5⟩ :=
    aggregate_single_source "0xabc" 1 [⟨"coingecko", some 100, some (19/20), none⟩]
      ⟨"coingecko", some 100, some (19/20), none⟩ 100 (19/20) hfil rfl rfl
  refine ⟨hfil, ?_, ?_, h4, h5⟩
  · rw [h1, roundTo_of_int 6 100 (10 ^ 8) (by norm_num)]
    norm_num
  · rw [h3, roundTo_of_int 3 ((19:ℚ)/20 * (8/10)) 760 (by norm_num)]
    norm_num

/-! ### C3: consensus price for two or more valid quotes -/

/-- C3: with at least two valid quotes, the consensus price is the
confidence-weighted mean `Σ(price_i * confidence_i) / Σ(confidence_i)` over
the valid quotes (an absent confidence contributing 0.5), rounded to 6 decimal
places; if the confidences sum to zero the median of the valid prices is used
instead. -/
theorem aggregate_weighted_consensus_price (t : String) (c : ℤ) (qs : List Quote)
    (h : 2 ≤ (qs.filter validQuote).length) :
    (aggregatePrices t c qs).price_usd =
      roundTo 6
        (if ((qs.filter validQuote).map (fun s => s.confidence.getD (1/2))).sum = 0 then
          pymedian ((qs.filter validQuote).map (fun s => s.price_usd.getD 0))
        else
          ((((qs.filter validQuote).map (fun s => s.price_usd.getD 0)).zip
              ((qs.filter validQuote).map (fun s => s.confidence.getD (1/2)))).map
            (fun pc => pc.1 * pc.2)).sum /
          ((qs.filter validQuote).map (fun s => s.confidence.getD (1/2))).sum) := by
  have hne : (qs.filter validQuote).isEmpty = false := by
    cases hv : qs.filter validQuote with
    | nil => rw [hv] at h; simp at h
    | cons a l => rfl
  have hlen : (pricesOf (qs.filter validQuote)).length = (qs.filter validQuote).length :=
    List.length_map _ _
  have hlen1 : ¬ (pricesOf (qs.filter validQuote)).length = 1 := by omega
  have hne2 : ¬ pricesOf (qs.filter validQuote) = [] := by
    intro h0
    rw [h0] at hlen
    simp at hlen
    omega
  simp only [aggregatePrices, hne, Bool.false_eq_true, if_false, finalPriceOf,
    calculateWeightedPrice, pricesOf, confidencesOf]
  rw [if_neg (by simpa [pricesOf] using hlen1), if_neg (by simpa [pricesOf] using hne2)]

/-- Witness for C3: quotes `{100, 0.9}` and `{102, 0.8}` give the weighted
mean `(100*0.9 + 102*0.8)/1.7 = 1716/17`, rounded to `100.941176`. -/
theorem aggregate_weighted_consensus_price_witness :
    2 ≤ ([⟨"coingecko", some 100, some (9/10), none⟩,
          ⟨"uniswap_v3", some 102, some (8/10), none⟩].filter validQuote).length ∧
    (aggregatePrices "0xabc" 1
        [⟨"coingecko", some 100, some (9/10), none⟩,
         ⟨"uniswap_v3", some 102, some (8/10), none⟩]).price_usd
      = 12617647/125000 := by
  have h2 : 2 ≤ ([(⟨"coingecko", some 100, some (9/10), none⟩ : Quote),
          ⟨"uniswap_v3", some 102, some (8/10), none⟩].filter validQuote).length := by
    norm_num [List.filter, validQuote]
  refine ⟨h2, ?_⟩
  rw [aggregate_weighted_consensus_price "0xabc" 1 _ h2]
  norm_num [List.filter, validQuote]
  rw [roundTo_of_lt_half 6 _ 100941176 (by norm_num) (by norm_num)]
  norm_num

/-! ### C4: confidence formula for two or more valid quotes -/

/-- C4: with at least two valid quotes, the returned confidence is
`median(confidence_i) + min(0.1 * valid_count, 0.2) - spread_penalty`, where
the penalty is `min((spread_pct - 5.0)/100, 0.3)` when `spread_pct` exceeds
5.0 and 0 otherwise, clamped to `[0.1, 1.0]` and rounded to 3 decimals. -/
theorem aggregate_confidence_formula (t : String) (c : ℤ) (qs : List Quote)
    (h : 2 ≤ (qs.filter validQuote).length) :
    (aggregatePrices t c qs).confidence =
      roundTo 3 (max (1/10) (min 1
        (pymedian ((qs.filter validQuote).map (fun s => s.confidence.getD (1/2)))
          + min (1/10 * ((qs.filter validQuote).length : ℚ)) (2/10)
          - (if 5 < spreadPctOf (pricesOf (qs.filter validQuote))
                  (confidencesOf (qs.filter validQuote)) then
               min ((spreadPctOf (pricesOf (qs.filter validQuote))
                  (confidencesOf (qs.filter validQuote)) - 5) / 100) (3/10)
             else 0)))) := by
  have hne : (qs.filter validQuote).isEmpty = false := by
    cases hv : qs.filter validQuote with
    | nil => rw [hv] at h; simp at h
    | cons a l => rfl
  have hlen : (pricesOf (qs.filter validQuote)).length = (qs.filter validQuote).length :=
    List.length_map _ _
  have hlen1 : ¬ (pricesOf (qs.filter validQuote)).length = 1 := by omega
  simp only [aggregatePrices, hne, Bool.false_eq_true, if_false, confidenceOf,
    calculateConfidence, MAX_SPREAD_PCT, hlen, confidencesOf]
  rw [if_neg (show ¬ (qs.filter validQuote).length = 1 by omega)]

/-- Witness for C4: quotes `{100, 0.9}` and `{102, 0.8}` give
`median = 0.85`, bonus `0.2`, spread below 5 (no penalty), so
`1.05` clamps to `1.0`. -/
theorem aggregate_confidence_formula_witness :
    2 ≤ ([⟨"coingecko", some 100, some (9/10), none⟩,
          ⟨"uniswap_v3", some 102, some (8/10), none⟩].filter validQuote).length ∧
    (aggregatePrices "0xabc" 1
        [⟨"coingecko", some 100, some (9/10), none⟩,
         ⟨"uniswap_v3", some 102, some (8/10), none⟩]).confidence = 1 := by
  have h2 : 2 ≤ ([(⟨"coingecko", some 100, some (9/10), none⟩ : Quote),
          ⟨"uniswap_v3", some 102, some (8/10), none⟩].filter validQuote).length := by
    norm_num [List.filter, validQuote]
  have hfil : [(⟨"coingecko", some 100, some (9/10), none⟩ : Quote),
          ⟨"uniswap_v3", some 102, some (8/10), none⟩].filter validQuote
        = [⟨"coingecko", some 100, some (9/10), none⟩,
           ⟨"uniswap_v3", some 102, some (8/10), none⟩] := by
    norm_num [List.filter, validQuote]
  have hsp : spreadPctOf
      (pricesOf [(⟨"coingecko", some 100, some (9/10), none⟩ : Quote),
                 ⟨"uniswap_v3", some 102, some (8/10), none⟩])
      (confidencesOf [⟨"coingecko", some 100, some (9/10), none⟩,
                      ⟨"uniswap_v3", some 102, some (8/10), none⟩]) = 850/429 := by
    norm_num [spreadPctOf, finalPriceOf, calculateWeightedPrice, pricesOf, confidencesOf,
      priceMinOf, priceMaxOf, listMin, listMax, List.cons_ne_nil]
  refine ⟨h2, ?_⟩
  rw [aggregate_confidence_formula "0xabc" 1 _ h2, hfil, hsp]
  norm_num [pymedian, List.insertionSort, List.orderedInsert]
  rw [roundTo_of_int 3 _ 1000 (by norm_num)]
  norm_num

/-! ### C1: the confidence clamp -/

/-- The clamp `max(0.1, min(1.0, _))` of `_calculate_confidence` keeps its
value inside `[0.1, 1.0]`. -/
theorem calculateConfidence_mem_clamp (prices confidences : List ℚ) (sp : ℚ) :
    1/10 ≤ calculateConfidence prices confidences sp ∧
    calculateConfidence prices confidences sp ≤ 1 := by
  simp only [calculateConfidence]
  exact ⟨le_max_left _ _, max_le (by norm_num) (min_le_left _ _)⟩

/-- Rounding to 3 decimal places preserves the interval `[0.1, 1.0]`. -/
theorem roundTo_three_clamped (y : ℚ) (h1 : 1/10 ≤ y) (h2 : y ≤ 1) :
    1/10 ≤ roundTo 3 y ∧ roundTo 3 y ≤ 1 := by
  have hl : (100:ℤ) ≤ roundHalfEven (y * 10 ^ 3) :=
    intCast_le_roundHalfEven 100 _ (by push_cast; nlinarith)
  have hu : roundHalfEven (y * 10 ^ 3) ≤ 1000 :=
    roundHalfEven_le_intCast 1000 _ (by push_cast; nlinarith)
  have hl' : (100:ℚ) ≤ ((roundHalfEven (y * 10 ^ 3) : ℤ) : ℚ) := by exact_mod_cast hl
  have hu' : ((roundHalfEven (y * 10 ^ 3) : ℤ) : ℚ) ≤ 1000 := by exact_mod_cast hu
  rw [roundTo]
  constructor
  · rw [le_div_iff₀ (by norm_num : (0:ℚ) < 10 ^ 3)]
    exact le_trans (by norm_num) hl'
  · rw [div_le_one (by norm_num : (0:ℚ) < 10 ^ 3)]
    exact le_trans hu' (by norm_num)

/-- Counterexample to C1: a single valid quote with source confidence 0 is a
valid-quote input whose returned confidence is 0, strictly below the claimed
lower clamp of 0.1 (the single-source branch multiplies by 0.8 without
clamping). -/
theorem aggregate_confidence_clamp_counterexample :
    validQuote ⟨"coingecko", some 100, some 0, none⟩ = true ∧
    (aggregatePrices "0xabc" 1 [⟨"coingecko", some 100, some 0, none⟩]).confidence = 0 ∧
    ¬ (1/10 ≤ (aggregatePrices "0xabc" 1
        [⟨"coingecko", some 100, some 0, none⟩]).confidence) := by
  have hc : (aggregatePrices "0xabc" 1
      [⟨"coingecko", some 100, some 0, none⟩]).confidence = 0 := by
    norm_num [aggregatePrices, List.filter, validQuote, pricesOf, confidencesOf,
      confidenceOf, roundTo_zero]
  refine ⟨by norm_num [validQuote], hc, ?_⟩
  rw [hc]
  norm_num

/-- C1 (amended): for every input with at least two valid quotes, the returned
confidence lies in `[0.1, 1.0]` regardless of how extreme the individual
source confidences are.  (With exactly one valid quote the code returns
`0.8 * confidence` without clamping, which can be below 0.1.) -/
theorem aggregate_confidence_clamped (t : String) (c : ℤ) (qs : List Quote)
    (h : 2 ≤ (qs.filter validQuote).length) :
    1/10 ≤ (aggregatePrices t c qs).confidence ∧
    (aggregatePrices t c qs).confidence ≤ 1 := by
  have hne : (qs.filter validQuote).isEmpty = false := by
    cases hv : qs.filter validQuote with
    | nil => rw [hv] at h; simp at h
    | cons a l => rfl
  have hlen : (pricesOf (qs.filter validQuote)).length = (qs.filter validQuote).length :=
    List.length_map _ _
  have hlen1 : ¬ (pricesOf (qs.filter validQuote)).length = 1 := by omega
  have hconf : (aggregatePrices t c qs).confidence =
      roundTo 3 (calculateConfidence (pricesOf (qs.filter validQuote))
        (confidencesOf (qs.filter validQuote))
        (spreadPctOf (pricesOf (qs.filter validQuote))
          (confidencesOf (qs.filter validQuote)))) := by
    simp only [aggregatePrices, hne, Bool.false_eq_true, if_false, confidenceOf,
      if_neg hlen1]
  rw [hconf]
  exact roundTo_three_clamped _
    (calculateConfidence_mem_clamp _ _ _).1
    (calculateConfidence_mem_clamp _ _ _).2

/-- Witness for the amended C1: two valid quotes with confidence 0 each still
produce a confidence within `[0.1, 1.0]`. -/
theorem aggregate_confidence_clamped_witness :
    2 ≤ ([⟨"coingecko", some 100, some 0, none⟩,
          ⟨"uniswap_v3", some 102, some 0, none⟩].filter validQuote).length ∧
    (1/10 ≤ (aggregatePrices "0xabc" 1
        [⟨"coingecko", some 100, some 0, none⟩,
         ⟨"uniswap_v3", some 102, some 0, none⟩]).confidence ∧
     (aggregatePrices "0xabc" 1
        [⟨"coingecko", some 100, some 0, none⟩,
         ⟨"uniswap_v3", some 102, some 0, none⟩]).confidence ≤ 1) := by
  have h2 : 2 ≤ ([(⟨"coingecko", some 100, some 0, none⟩ : Quote),
          ⟨"uniswap_v3", some 102, some 0, none⟩].filter validQuote).length := by
    norm_num [List.filter, validQuote]
  exact ⟨h2, aggregate_confidence_clamped "0xabc" 1 _ h2⟩

/-! ### C6: positivity of the returned price -/

/-- A valid quote carries a strictly positive price. -/
theorem valid_price_pos (q : Quote) (h : validQuote q = true) :
    0 < q.price_usd.getD 0 := by
  cases hq : q.price_usd with
  | none => simp [validQuote, hq] at h
  | some p =>
      simp only [validQuote, hq, decide_eq_true_eq] at h
      simpa [hq] using h

/-- A left fold with `min` lands in the folded list (or at the seed). -/
theorem foldl_min_mem (xs : List ℚ) (x : ℚ) : xs.foldl min x ∈ x :: xs := by
  induction xs generalizing x with
  | nil => simp
  | cons y ys ih =>
      simp only [List.foldl_cons]
      rcases List.mem_cons.mp (ih (min x y)) with h0 | h0
      · rw [h0]
        rcases min_choice x y with hm | hm <;> rw [hm]
        · exact List.mem_cons_self _ _
        · exact List.mem_cons_of_mem _ (List.mem_cons_self _ _)
      · exact List.mem_cons_of_mem _ (List.mem_cons_of_mem _ h0)

/-- A left fold with `min` is a lower bound of seed and list. -/
theorem foldl_min_le (xs : List ℚ) (x : ℚ) : ∀ a ∈ x :: xs, xs.foldl min x ≤ a := by
  induction xs generalizing x with
  | nil =>
      intro a ha
      simp only [List.mem_singleton] at ha
      simp [ha]
  | cons y ys ih =>
      intro a ha
      simp only [List.foldl_cons]
      rcases List.mem_cons.mp ha with rfl | ha'
      · exact le_trans (ih (min a y) _ (List.mem_cons_self _ _)) (min_le_left _ _)
      · rcases List.mem_cons.mp ha' with rfl | ha''
        · exact le_trans (ih (min x a) _ (List.mem_cons_self _ _)) (min_le_right _ _)
        · exact ih (min x y) a (List.mem_cons_of_mem _ ha'')

/-- `listMin` of a nonempty list is one of its elements. -/
theorem listMin_mem (l : List ℚ) (h : l ≠ []) : listMin l ∈ l := by
  cases l with
  | nil => exact absurd rfl h
  | cons x xs => simpa [listMin] using foldl_min_mem xs x

/-- `listMin` is a lower bound. -/
theorem listMin_le (l : List ℚ) (a : ℚ) (ha : a ∈ l) : listMin l ≤ a := by
  cases l with
  | nil => exact absurd ha (List.not_mem_nil a)
  | cons x xs => exact foldl_min_le xs x a ha

/-- An in-range `getD` of an all-positive list is positive. -/
theorem getD_pos_of_all_pos {l : List ℚ} (h : ∀ a ∈ l, 0 < a) {i : ℕ}
    (hi : i < l.length) : 0 < l.getD i 0 := by
  rw [List.getD_eq_getElem _ _ hi]
  exact h _ (List.getElem_mem _)

/-- The Python median of a nonempty all-positive list is positive. -/
theorem pymedian_pos (l : List ℚ) (hne : l ≠ []) (h : ∀ a ∈ l, 0 < a) :
    0 < pymedian l := by
  have hperm : List.Perm (l.insertionSort (· ≤ ·)) l := List.perm_insertionSort _ l
  have hs : ∀ a ∈ l.insertionSort (· ≤ ·), 0 < a := fun a ha => h a (hperm.mem_iff.mp ha)
  have hlen : (l.insertionSort (· ≤ ·)).length = l.length := hperm.length_eq
  have hlpos : 0 < l.length := List.length_pos.mpr hne
  simp only [pymedian]
  split_ifs with hodd
  · exact getD_pos_of_all_pos hs (by omega)
  · have ha := getD_pos_of_all_pos hs
      (show (l.insertionSort (· ≤ ·)).length / 2 - 1 < (l.insertionSort (· ≤ ·)).length by omega)
    have hb := getD_pos_of_all_pos hs
      (show (l.insertionSort (· ≤ ·)).length / 2 < (l.insertionSort (· ≤ ·)).length by omega)
    linarith

/-- Pairing the extracted price and confidence lists of the same quote list
recovers a single map over the quotes. -/
theorem weightedSum_eq (vs : List Quote) :
    (((pricesOf vs).zip (confidencesOf vs)).map (fun pc => pc.1 * pc.2)) =
      vs.map (fun q => q.price_usd.getD 0 * q.confidence.getD (1/2)) := by
  rw [pricesOf, confidencesOf, List.zip_map', List.map_map]
  rfl

/-- A uniform lower bound on prices scales through the weighted sum. -/
theorem mul_sum_le_weightedSum (vs : List Quote) (m : ℚ)
    (hm : ∀ q ∈ vs, m ≤ q.price_usd.getD 0)
    (hc : ∀ q ∈ vs, 0 ≤ q.confidence.getD (1/2)) :
    m * (confidencesOf vs).sum ≤
      (vs.map (fun q => q.price_usd.getD 0 * q.confidence.getD (1/2))).sum := by
  induction vs with
  | nil => simp [confidencesOf]
  | cons q rest ih =>
      simp only [confidencesOf, List.map_cons, List.sum_cons]
      have h1 : m ≤ q.price_usd.getD 0 := hm q (List.mem_cons_self _ _)
      have h2 : 0 ≤ q.confidence.getD (1/2) := hc q (List.mem_cons_self _ _)
      have h3 := ih (fun r hr => hm r (List.mem_cons_of_mem _ hr))
        (fun r hr => hc r (List.mem_cons_of_mem _ hr))
      have h4 : m * q.confidence.getD (1/2) ≤
          q.price_usd.getD 0 * q.confidence.getD (1/2) :=
        mul_le_mul_of_nonneg_right h1 h2
      simp only [confidencesOf] at h3
      nlinarith [h3, h4]

/-- The unrounded consensus price is positive whenever every valid quote has a
positive price and a nonnegative effective confidence. -/
theorem finalPrice_pos (vs : List Quote) (hne : vs ≠ [])
    (hp : ∀ q ∈ vs, 0 < q.price_usd.getD 0)
    (hc : ∀ q ∈ vs, 0 ≤ q.confidence.getD (1/2)) :
    0 < finalPriceOf (pricesOf vs) (confidencesOf vs) := by
  have hpp : ∀ a ∈ pricesOf vs, 0 < a := by
    intro a ha
    rw [pricesOf] at ha
    obtain ⟨q, hq, rfl⟩ := List.mem_map.mp ha
    exact hp q hq
  have hpe : pricesOf vs ≠ [] := by
    rw [pricesOf]
    simpa using hne
  rw [finalPriceOf]
  split_ifs with hlen
  · -- single price: the head of a nonempty all-positive list
    cases hv : pricesOf vs with
    | nil => exact absurd hv hpe
    | cons a rest =>
        simp only [List.headD_cons]
        exact hpp a (hv ▸ List.mem_cons_self a rest)
  · simp only [calculateWeightedPrice, if_neg hpe]
    split_ifs with hw
    · exact pymedian_pos _ hpe hpp
    · -- positive weighted sum over a positive total weight
      have hcs : 0 ≤ (confidencesOf vs).sum := by
        apply List.sum_nonneg
        intro x hx
        rw [confidencesOf] at hx
        obtain ⟨q, hq, rfl⟩ := List.mem_map.mp hx
        exact hc q hq
      have hcpos : 0 < (confidencesOf vs).sum := lt_of_le_of_ne hcs (Ne.symm hw)
      have hmpos : 0 < listMin (pricesOf vs) := hpp _ (listMin_mem _ hpe)
      have hmle : ∀ q ∈ vs, listMin (pricesOf vs) ≤ q.price_usd.getD 0 := by
        intro q hq
        exact listMin_le _ _ (List.mem_map.mpr ⟨q, hq, rfl⟩)
      have hws := mul_sum_le_weightedSum vs (listMin (pricesOf vs)) hmle hc
      rw [weightedSum_eq]
      apply div_pos _ hcpos
      calc (0:ℚ) < listMin (pricesOf vs) * (confidencesOf vs).sum :=
            mul_pos hmpos hcpos
        _ ≤ _ := hws

/-- Counterexample to C6: a single valid quote priced at `1e-07` (a positive
price) aggregates to a returned price of exactly 0.0, because rounding to six
decimal places sends it to zero. -/
theorem aggregate_price_zero_counterexample :
    validQuote ⟨"uniswap_v3", some (1/10000000), some (9/10), none⟩ = true ∧
    (aggregatePrices "0xabc" 1
        [⟨"uniswap_v3", some (1/10000000), some (9/10), none⟩]).price_usd = 0 := by
  constructor
  · norm_num [validQuote]
  · have : (aggregatePrices "0xabc" 1
        [⟨"uniswap_v3", some (1/10000000), some (9/10), none⟩]).price_usd
        = roundTo 6 (1/10000000) := by
      norm_num [aggregatePrices, List.filter, validQuote, pricesOf, confidencesOf,
        finalPriceOf]
    rw [this, roundTo_of_lt_half 6 _ 0 (by norm_num) (by norm_num)]
    norm_num

/-- C6 (amended): the returned price is 0.0 when no quote is valid; and for
every input with at least one valid quote whose effective confidences are all
nonnegative, the unrounded consensus price is strictly positive, and the
returned (rounded) price is strictly positive provided the unrounded
consensus price exceeds `5e-07` — consensus prices at or below that half-step
round to 0.0. -/
theorem aggregate_price_positive_iff_valid (t : String) (c : ℤ) (qs : List Quote) :
    ((∀ q ∈ qs, validQuote q = false) → (aggregatePrices t c qs).price_usd = 0) ∧
    ((∃ q ∈ qs, validQuote q = true) →
      (∀ q ∈ qs.filter validQuote, 0 ≤ q.confidence.getD (1/2)) →
      0 < finalPriceOf (pricesOf (qs.filter validQuote))
            (confidencesOf (qs.filter validQuote)) ∧
      (1/2000000 < finalPriceOf (pricesOf (qs.filter validQuote))
            (confidencesOf (qs.filter validQuote)) →
        0 < (aggregatePrices t c qs).price_usd)) := by
  constructor
  · intro h
    have hf : qs.filter validQuote = [] :=
      List.filter_eq_nil_iff.mpr (fun a ha => by simp [h a ha])
    simp [aggregatePrices, hf, createErrorResult]
  · rintro ⟨q0, hq0, hq0v⟩ hcn
    have hne : qs.filter validQuote ≠ [] := by
      intro h0
      have : q0 ∈ qs.filter validQuote := List.mem_filter.mpr ⟨hq0, hq0v⟩
      rw [h0] at this
      exact List.not_mem_nil q0 this
    have hp : ∀ q ∈ qs.filter validQuote, 0 < q.price_usd.getD 0 := by
      intro q hq
      exact valid_price_pos q (List.mem_filter.mp hq).2
    have hfp := finalPrice_pos (qs.filter validQuote) hne hp hcn
    refine ⟨hfp, fun hbig => ?_⟩
    have hE : (qs.filter validQuote).isEmpty = false := by
      cases hv : qs.filter validQuote with
      | nil => exact absurd hv hne
      | cons a l => rfl
    have hprice : (aggregatePrices t c qs).price_usd =
        roundTo 6 (finalPriceOf (pricesOf (qs.filter validQuote))
          (confidencesOf (qs.filter validQuote))) := by
      simp only [aggregatePrices, hE, Bool.false_eq_true, if_false]
    rw [hprice, roundTo]
    apply div_pos _ (by norm_num : (0:ℚ) < 10 ^ 6)
    have h1 : 1 ≤ roundHalfEven (finalPriceOf (pricesOf (qs.filter validQuote))
        (confidencesOf (qs.filter validQuote)) * 10 ^ 6) := by
      apply one_le_roundHalfEven
      nlinarith [hbig]
    exact_mod_cast lt_of_lt_of_le Int.zero_lt_one h1

/-- Witness for the amended C6: two valid dollar-scale quotes produce a
positive consensus and a positive rounded price. -/
theorem aggregate_price_positive_iff_valid_witness :
    ((∀ q ∈ [(⟨"coingecko", some 2, some (9/10), none⟩ : Quote),
             ⟨"uniswap_v3", some 3, some (9/10), none⟩], validQuote q = false) →
      (aggregatePrices "0xabc" 1
        [⟨"coingecko", some 2, some (9/10), none⟩,
         ⟨"uniswap_v3", some 3, some (9/10), none⟩]).price_usd = 0) ∧
    (0 < finalPriceOf
        (pricesOf ([(⟨"coingecko", some 2, some (9/10), none⟩ : Quote),
                    ⟨"uniswap_v3", some 3, some (9/10), none⟩].filter validQuote))
        (confidencesOf ([(⟨"coingecko", some 2, some (9/10), none⟩ : Quote),
                    ⟨"uniswap_v3", some 3, some (9/10), none⟩].filter validQuote)) ∧
     0 < (aggregatePrices "0xabc" 1
        [⟨"coingecko", some 2, some (9/10), none⟩,
         ⟨"uniswap_v3", some 3, some (9/10), none⟩]).price_usd) := by
  have hmain := aggregate_price_positive_iff_valid "0xabc" 1
    [(⟨"coingecko", some 2, some (9/10), none⟩ : Quote),
     ⟨"uniswap_v3", some 3, some (9/10), none⟩]
  have hex : ∃ q ∈ [(⟨"coingecko", some 2, some (9/10), none⟩ : Quote),
      ⟨"uniswap_v3", some 3, some (9/10), none⟩], validQuote q = true := by
    refine ⟨⟨"coingecko", some 2, some (9/10), none⟩, List.mem_cons_self _ _, ?_⟩
    norm_num [validQuote]
  have hcn : ∀ q ∈ [(⟨"coingecko", some 2, some (9/10), none⟩ : Quote),
      ⟨"uniswap_v3", some 3, some (9/10), none⟩].filter validQuote,
      0 ≤ q.confidence.getD (1/2) := by
    intro q hq
    have := List.mem_filter.mp hq
    have hm := this.1
    simp only [List.mem_cons, List.not_mem_nil, or_false] at hm
    rcases hm with rfl | rfl <;> norm_num
  obtain ⟨hfp, himp⟩ := hmain.2 hex hcn
  have hbig : (1:ℚ)/2000000 < finalPriceOf
      (pricesOf ([(⟨"coingecko", some 2, some (9/10), none⟩ : Quote),
                  ⟨"uniswap_v3", some 3, some (9/10), none⟩].filter validQuote))
      (confidencesOf ([(⟨"coingecko", some 2, some (9/10), none⟩ : Quote),
                  ⟨"uniswap_v3", some 3, some (9/10), none⟩].filter validQuote)) := by
    norm_num [List.filter, validQuote, finalPriceOf, calculateWeightedPrice,
      pricesOf, confidencesOf, List.cons_ne_nil]
  exact ⟨hmain.1, hfp, himp hbig⟩

/-! ### C8: warning generation order and conditions -/

/-- C8: with at least one valid quote, the warnings list is exactly the fixed-
order concatenation: the high-spread warning iff `spread_pct > 5`, the
escalated very-high-spread warning iff `spread_pct > 15`, the single-source
warning iff exactly one quote is valid, and the failed-sources info warning
iff some input quote was invalid (the no-valid-data entry never fires here). -/
theorem aggregate_warnings_fixed_order (t : String) (c : ℤ) (qs : List Quote)
    (h : ∃ q ∈ qs, validQuote q = true) :
    (aggregatePrices t c qs).warnings =
      (if 5 < spreadPctOf (pricesOf (qs.filter validQuote))
            (confidencesOf (qs.filter validQuote)) then
        ["⚠️ High price spread: "
          ++ formatFixed1 (spreadPctOf (pricesOf (qs.filter validQuote))
              (confidencesOf (qs.filter validQuote)))
          ++ "% between sources"]
       else [])
      ++ (if 15 < spreadPctOf (pricesOf (qs.filter validQuote))
            (confidencesOf (qs.filter validQuote)) then
        ["🚨 VERY HIGH SPREAD - Price may be unreliable or arbitrage opportunity"]
       else [])
      ++ (if (qs.filter validQuote).length = 1 then
        ["ℹ️ Single price source - confidence reduced"]
       else [])
      ++ (if (qs.filter validQuote).length < qs.length then
        ["ℹ️ " ++ toString (qs.length - (qs.filter validQuote).length)
          ++ " source(s) failed to provide price"]
       else []) := by
  obtain ⟨q0, hq0, hq0v⟩ := h
  have hne : qs.filter validQuote ≠ [] := by
    intro h0
    have : q0 ∈ qs.filter validQuote := List.mem_filter.mpr ⟨hq0, hq0v⟩
    rw [h0] at this
    exact List.not_mem_nil q0 this
  have hE : (qs.filter validQuote).isEmpty = false := by
    cases hv : qs.filter validQuote with
    | nil => exact absurd hv hne
    | cons a l => rfl
  have hlen0 : ¬ (qs.filter validQuote).length = 0 := by
    intro h0
    exact hne (List.length_eq_zero.mp h0)
  simp only [aggregatePrices, hE, Bool.false_eq_true, if_false, generateWarnings,
    MAX_SPREAD_PCT]
  rw [if_neg hlen0, List.append_nil]

/-- Witness for C8: quotes `{100, 0.9}` and `{150, 0.9}` give spread 40%, so
exactly the two spread warnings fire, in order. -/
theorem aggregate_warnings_fixed_order_witness :
    (∃ q ∈ [(⟨"coingecko", some 100, some (9/10), none⟩ : Quote),
            ⟨"uniswap_v3", some 150, some (9/10), none⟩], validQuote q = true) ∧
    (aggregatePrices "0xabc" 1
        [⟨"coingecko", some 100, some (9/10), none⟩,
         ⟨"uniswap_v3", some 150, some (9/10), none⟩]).warnings =
      ["⚠️ High price spread: 40.0% between sources",
       "🚨 VERY HIGH SPREAD - Price may be unreliable or arbitrage opportunity"] := by
  have hex : ∃ q ∈ [(⟨"coingecko", some 100, some (9/10), none⟩ : Quote),
      ⟨"uniswap_v3", some 150, some (9/10), none⟩], validQuote q = true := by
    refine ⟨⟨"coingecko", some 100, some (9/10), none⟩, List.mem_cons_self _ _, ?_⟩
    norm_num [validQuote]
  have hfil : [(⟨"coingecko", some 100, some (9/10), none⟩ : Quote),
          ⟨"uniswap_v3", some 150, some (9/10), none⟩].filter validQuote
        = [⟨"coingecko", some 100, some (9/10), none⟩,
           ⟨"uniswap_v3", some 150, some (9/10), none⟩] := by
    norm_num [List.filter, validQuote]
  have hsp : spreadPctOf
      (pricesOf [(⟨"coingecko", some 100, some (9/10), none⟩ : Quote),
                 ⟨"uniswap_v3", some 150, some (9/10), none⟩])
      (confidencesOf [⟨"coingecko", some 100, some (9/10), none⟩,
                      ⟨"uniswap_v3", some 150, some (9/10), none⟩]) = 40 := by
    norm_num [spreadPctOf, finalPriceOf, calculateWeightedPrice, pricesOf, confidencesOf,
      priceMinOf, priceMaxOf, listMin, listMax, List.cons_ne_nil]
  have hfmt : formatFixed1 40 = "40.0" := by
    have h4 : roundHalfEven ((40:ℚ) * 10) = 400 := by
      rw [show ((40:ℚ) * 10) = ((400:ℤ):ℚ) by norm_num, roundHalfEven_intCast]
    simp only [formatFixed1, h4]
    rfl
  refine ⟨hex, ?_⟩
  rw [aggregate_warnings_fixed_order "0xabc" 1 _ hex, hfil, hsp, hfmt]
  norm_num
  rfl

/-! ### C10: rounding of the price_range fields -/

/-- C10: with at least one valid quote, the returned `price_range` carries the
minimum and maximum valid price rounded to 6 decimal places and the spread
percentage rounded to 2 decimal places. -/
theorem aggregate_price_range_rounding (t : String) (c : ℤ) (qs : List Quote)
    (h : ∃ q ∈ qs, validQuote q = true) :
    (aggregatePrices t c qs).price_range =
      { min := roundTo 6 (priceMinOf (pricesOf (qs.filter validQuote)))
        max := roundTo 6 (priceMaxOf (pricesOf (qs.filter validQuote)))
        spread_percent := roundTo 2 (spreadPctOf (pricesOf (qs.filter validQuote))
          (confidencesOf (qs.filter validQuote))) } := by
  obtain ⟨q0, hq0, hq0v⟩ := h
  have hne : qs.filter validQuote ≠ [] := by
    intro h0
    have : q0 ∈ qs.filter validQuote := List.mem_filter.mpr ⟨hq0, hq0v⟩
    rw [h0] at this
    exact List.not_mem_nil q0 this
  have hE : (qs.filter validQuote).isEmpty = false := by
    cases hv : qs.filter validQuote with
    | nil => exact absurd hv hne
    | cons a l => rfl
  simp only [aggregatePrices, hE, Bool.false_eq_true, if_false]

/-- Witness for C10: quotes `{100, 0.9}` and `{102, 0.8}` give range
min 100.0, max 102.0 and spread `850/429 ≈ 1.9813%` rounded to 1.98. -/
theorem aggregate_price_range_rounding_witness :
    (∃ q ∈ [(⟨"coingecko", some 100, some (9/10), none⟩ : Quote),
            ⟨"uniswap_v3", some 102, some (8/10), none⟩], validQuote q = true) ∧
    (aggregatePrices "0xabc" 1
        [⟨"coingecko", some 100, some (9/10), none⟩,
         ⟨"uniswap_v3", some 102, some (8/10), none⟩]).price_range =
      { min := 100, max := 102, spread_percent := 99/50 } := by
  have hex : ∃ q ∈ [(⟨"coingecko", some 100, some (9/10), none⟩ : Quote),
      ⟨"uniswap_v3", some 102, some (8/10), none⟩], validQuote q = true := by
    refine ⟨⟨"coingecko", some 100, some (9/10), none⟩, List.mem_cons_self _ _, ?_⟩
    norm_num [validQuote]
  have hfil : [(⟨"coingecko", some 100, some (9/10), none⟩ : Quote),
          ⟨"uniswap_v3", some 102, some (8/10), none⟩].filter validQuote
        = [⟨"coingecko", some 100, some (9/10), none⟩,
           ⟨"uniswap_v3", some 102, some (8/10), none⟩] := by
    norm_num [List.filter, validQuote]
  have hsp : spreadPctOf
      (pricesOf [(⟨"coingecko", some 100, some (9/10), none⟩ : Quote),
                 ⟨"uniswap_v3", some 102, some (8/10), none⟩])
      (confidencesOf [⟨"coingecko", some 100, some (9/10), none⟩,
                      ⟨"uniswap_v3", some 102, some (8/10), none⟩]) = 850/429 := by
    norm_num [spreadPctOf, finalPriceOf, calculateWeightedPrice, pricesOf, confidencesOf,
      priceMinOf, priceMaxOf, listMin, listMax, List.cons_ne_nil]
  have hmin : priceMinOf (pricesOf [(⟨"coingecko", some 100, some (9/10), none⟩ : Quote),
      ⟨"uniswap_v3", some 102, some (8/10), none⟩]) = 100 := by
    norm_num [priceMinOf, pricesOf, listMin]
  have hmax : priceMaxOf (pricesOf [(⟨"coingecko", some 100, some (9/10), none⟩ : Quote),
      ⟨"uniswap_v3", some 102, some (8/10), none⟩]) = 102 := by
    norm_num [priceMaxOf, pricesOf, listMax]
  refine ⟨hex, ?_⟩
  rw [aggregate_price_range_rounding "0xabc" 1 _ hex, hfil, hsp, hmin, hmax]
  simp only [PriceRange.mk.injEq]
  refine ⟨?_, ?_, ?_⟩
  · rw [roundTo_of_int 6 100 (10 ^ 8) (by norm_num)]
    norm_num
  · rw [roundTo_of_int 6 102 102000000 (by norm_num)]
    norm_num
  · rw [roundTo_of_lt_half 2 _ 198 (by norm_num) (by norm_num)]
    norm_num

/-! ### C9: the engine never raises -/

/-- A nonempty list is not `isEmpty`. -/
theorem isEmpty_false_of_ne_nil {α : Type} (l : List α) (h : l ≠ []) :
    l.isEmpty = false := by
  cases l with
  | nil => exact absurd rfl h
  | cons a t => rfl

/-- On a nonempty price list, the raising-aware weighted price computes the
total one. -/
theorem calculateWeightedPriceOpt_eq (prices confidences : List ℚ)
    (h : prices ≠ []) :
    calculateWeightedPriceOpt prices confidences =
      some (calculateWeightedPrice prices confidences) := by
  simp only [calculateWeightedPriceOpt, calculateWeightedPrice, if_neg h]
  split_ifs with hw
  · simp [pymedianOpt, isEmpty_false_of_ne_nil _ h]
  · simp [qdivOpt, hw]

/-- On a nonempty confidence list, the raising-aware confidence computes the
total one. -/
theorem calculateConfidenceOpt_eq (prices confidences : List ℚ) (sp : ℚ)
    (h : confidences ≠ []) :
    calculateConfidenceOpt prices confidences sp =
      some (calculateConfidence prices confidences sp) := by
  simp only [calculateConfidenceOpt, calculateConfidence, pymedianOpt,
    isEmpty_false_of_ne_nil _ h, Bool.false_eq_true, if_false, Option.map_some']

/-- C9: for every token address, chain id and quote list — including the empty
list and quotes with absent price, absent confidence or nonpositive price —
the aggregation terminates normally with a `PriceResult`: the model in which
every potentially-raising Python operation is explicit returns `some` of the
total function's result, never `none`. -/
theorem aggregate_never_raises (t : String) (c : ℤ) (qs : List Quote) :
    aggregatePricesOpt t c qs = some (aggregatePrices t c qs) := by
  by_cases hE : (qs.filter validQuote).isEmpty
  · simp [aggregatePricesOpt, aggregatePrices, hE]
  · have hne : qs.filter validQuote ≠ [] := by
      intro h0
      rw [h0] at hE
      exact hE rfl
    have hEf : (qs.filter validQuote).isEmpty = false :=
      isEmpty_false_of_ne_nil _ hne
    have hpe : pricesOf (qs.filter validQuote) ≠ [] := by
      rw [pricesOf]
      simpa using hne
    have hce : confidencesOf (qs.filter validQuote) ≠ [] := by
      rw [confidencesOf]
      simpa using hne
    by_cases hlen : (pricesOf (qs.filter validQuote)).length = 1
    · obtain ⟨p, ps, hv⟩ : ∃ p ps, pricesOf (qs.filter validQuote) = p :: ps := by
        cases hv : pricesOf (qs.filter validQuote) with
        | nil => exact absurd hv hpe
        | cons a l => exact ⟨a, l, rfl⟩
      obtain ⟨cf, cs, hcv⟩ : ∃ cf cs, confidencesOf (qs.filter validQuote) = cf :: cs := by
        cases hcv : confidencesOf (qs.filter validQuote) with
        | nil => exact absurd hcv hce
        | cons a l => exact ⟨a, l, rfl⟩
      simp [aggregatePricesOpt, aggregatePrices, hEf, hv, hcv,
        hv ▸ hlen, finalPriceOf, priceMinOf, priceMaxOf, spreadPctOf, confidenceOf]
    · simp only [aggregatePricesOpt, aggregatePrices, hEf, Bool.false_eq_true, if_false,
        if_neg hlen, calculateWeightedPriceOpt_eq _ _ hpe,
        listMinOpt, listMaxOpt, isEmpty_false_of_ne_nil _ hpe, Option.some_bind]
      have hsp : (if 0 < calculateWeightedPrice (pricesOf (qs.filter validQuote))
            (confidencesOf (qs.filter validQuote)) then
          (qdivOpt (listMax (pricesOf (qs.filter validQuote))
              - listMin (pricesOf (qs.filter validQuote)))
            (calculateWeightedPrice (pricesOf (qs.filter validQuote))
              (confidencesOf (qs.filter validQuote)))).map (· * 100)
        else some 0) = some (spreadPctOf (pricesOf (qs.filter validQuote))
          (confidencesOf (qs.filter validQuote))) := by
        rw [spreadPctOf, if_neg hlen, finalPriceOf, if_neg hlen, priceMinOf, priceMaxOf,
          if_neg hlen, if_neg hlen]
        split_ifs with hfp
        · simp [qdivOpt, ne_of_gt hfp]
        · rfl
      rw [hsp]
      simp only [Option.some_bind]
      rw [calculateConfidenceOpt_eq _ _ _ hce]
      simp only [Option.map_some']
      simp [finalPriceOf, if_neg hlen, priceMinOf, priceMaxOf, confidenceOf]

/-! ### C7: permutation invariance -/

/-- A left fold with `max` lands in the folded list (or at the seed). -/
theorem foldl_max_mem (xs : List ℚ) (x : ℚ) : xs.foldl max x ∈ x :: xs := by
  induction xs generalizing x with
  | nil => simp
  | cons y ys ih =>
      simp only [List.foldl_cons]
      rcases List.mem_cons.mp (ih (max x y)) with h0 | h0
      · rw [h0]
        rcases max_choice x y with hm | hm <;> rw [hm]
        · exact List.mem_cons_self _ _
        · exact List.mem_cons_of_mem _ (List.mem_cons_self _ _)
      · exact List.mem_cons_of_mem _ (List.mem_cons_of_mem _ h0)

/-- A left fold with `max` is an upper bound of seed and list. -/
theorem le_foldl_max (xs : List ℚ) (x : ℚ) : ∀ a ∈ x :: xs, a ≤ xs.foldl max x := by
  induction xs generalizing x with
  | nil =>
      intro a ha
      simp only [List.mem_singleton] at ha
      simp [ha]
  | cons y ys ih =>
      intro a ha
      simp only [List.foldl_cons]
      rcases List.mem_cons.mp ha with rfl | ha'
      · exact le_trans (le_max_left _ _) (ih (max a y) _ (List.mem_cons_self _ _))
      · rcases List.mem_cons.mp ha' with rfl | ha''
        · exact le_trans (le_max_right _ _) (ih (max x a) _ (List.mem_cons_self _ _))
        · exact ih (max x y) a (List.mem_cons_of_mem _ ha'')

/-- `listMax` of a nonempty list is one of its elements. -/
theorem listMax_mem (l : List ℚ) (h : l ≠ []) : listMax l ∈ l := by
  cases l with
  | nil => exact absurd rfl h
  | cons x xs => simpa [listMax] using foldl_max_mem xs x

/-- `listMax` is an upper bound. -/
theorem le_listMax (l : List ℚ) (a : ℚ) (ha : a ∈ l) : a ≤ listMax l := by
  cases l with
  | nil => exact absurd ha (List.not_mem_nil a)
  | cons x xs => exact le_foldl_max xs x a ha

/-- `listMin` only depends on the multiset of elements. -/
theorem listMin_perm (l h' : List ℚ) (h : List.Perm l h') : listMin l = listMin h' := by
  rcases eq_or_ne l [] with rfl | hne
  · rw [List.Perm.eq_nil h.symm]
  · have hne' : h' ≠ [] := fun h0 => hne (List.Perm.eq_nil (h0 ▸ h))
    exact le_antisymm
      (listMin_le l _ (h.mem_iff.mpr (listMin_mem h' hne')))
      (listMin_le h' _ (h.mem_iff.mp (listMin_mem l hne)))

/-- `listMax` only depends on the multiset of elements. -/
theorem listMax_perm (l h' : List ℚ) (h : List.Perm l h') : listMax l = listMax h' := by
  rcases eq_or_ne l [] with rfl | hne
  · rw [List.Perm.eq_nil h.symm]
  · have hne' : h' ≠ [] := fun h0 => hne (List.Perm.eq_nil (h0 ▸ h))
    exact le_antisymm
      (le_listMax h' _ (h.mem_iff.mp (listMax_mem l hne)))
      (le_listMax l _ (h.mem_iff.mpr (listMax_mem h' hne')))

/-- The Python median only depends on the multiset of elements. -/
theorem pymedian_perm (l l' : List ℚ) (h : List.Perm l l') : pymedian l = pymedian l' := by
  have hs : l.insertionSort (· ≤ ·) = l'.insertionSort (· ≤ ·) :=
    List.eq_of_perm_of_sorted
      ((List.perm_insertionSort _ l).trans (h.trans (List.perm_insertionSort _ l').symm))
      (List.sorted_insertionSort _ l) (List.sorted_insertionSort _ l')
  simp only [pymedian, hs]

/-- The weighted price is invariant under permutation of the valid quotes. -/
theorem calculateWeightedPrice_perm (vs vs' : List Quote) (h : List.Perm vs vs') :
    calculateWeightedPrice (pricesOf vs) (confidencesOf vs) =
      calculateWeightedPrice (pricesOf vs') (confidencesOf vs') := by
  have hp : List.Perm (pricesOf vs) (pricesOf vs') := h.map _
  have hc : List.Perm (confidencesOf vs) (confidencesOf vs') := h.map _
  have hcs : (confidencesOf vs).sum = (confidencesOf vs').sum := hc.sum_eq
  have hws : (((pricesOf vs).zip (confidencesOf vs)).map (fun pc => pc.1 * pc.2)).sum =
      (((pricesOf vs').zip (confidencesOf vs')).map (fun pc => pc.1 * pc.2)).sum := by
    rw [weightedSum_eq, weightedSum_eq]
    exact (h.map _).sum_eq
  simp only [calculateWeightedPrice, hcs, hws]
  by_cases he : pricesOf vs = []
  · have he' : pricesOf vs' = [] := List.Perm.eq_nil (he ▸ hp).symm
    rw [if_pos he, if_pos he']
  · have he' : ¬ pricesOf vs' = [] := fun h0 => he (List.Perm.eq_nil (h0 ▸ hp.symm).symm)
    rw [if_neg he, if_neg he']
    split_ifs with h0
    · exact pymedian_perm _ _ hp
    · rfl

/-- The final price is invariant under permutation of the valid quotes. -/
theorem finalPriceOf_perm (vs vs' : List Quote) (h : List.Perm vs vs') :
    finalPriceOf (pricesOf vs) (confidencesOf vs) =
      finalPriceOf (pricesOf vs') (confidencesOf vs') := by
  have hp : List.Perm (pricesOf vs) (pricesOf vs') := h.map _
  have hlen : (pricesOf vs).length = (pricesOf vs').length := hp.length_eq
  simp only [finalPriceOf, hlen]
  split_ifs with h1
  · obtain ⟨a, ha⟩ := List.length_eq_one.mp h1
    have hp1 : List.Perm (pricesOf vs) [a] := by rw [← ha]; exact hp
    rw [List.perm_singleton.mp hp1, ha]
  · exact calculateWeightedPrice_perm _ _ h

/-- The minimum valid price is invariant under permutation. -/
theorem priceMinOf_perm (vs vs' : List Quote) (h : List.Perm vs vs') :
    priceMinOf (pricesOf vs) = priceMinOf (pricesOf vs') := by
  have hp : List.Perm (pricesOf vs) (pricesOf vs') := h.map _
  have hlen : (pricesOf vs).length = (pricesOf vs').length := hp.length_eq
  simp only [priceMinOf, hlen]
  split_ifs with h1
  · obtain ⟨a, ha⟩ := List.length_eq_one.mp h1
    have hp1 : List.Perm (pricesOf vs) [a] := by rw [← ha]; exact hp
    rw [List.perm_singleton.mp hp1, ha]
  · exact listMin_perm _ _ hp

/-- The maximum valid price is invariant under permutation. -/
theorem priceMaxOf_perm (vs vs' : List Quote) (h : List.Perm vs vs') :
    priceMaxOf (pricesOf vs) = priceMaxOf (pricesOf vs') := by
  have hp : List.Perm (pricesOf vs) (pricesOf vs') := h.map _
  have hlen : (pricesOf vs).length = (pricesOf vs').length := hp.length_eq
  simp only [priceMaxOf, hlen]
  split_ifs with h1
  · obtain ⟨a, ha⟩ := List.length_eq_one.mp h1
    have hp1 : List.Perm (pricesOf vs) [a] := by rw [← ha]; exact hp
    rw [List.perm_singleton.mp hp1, ha]
  · exact listMax_perm _ _ hp

/-- The spread percentage is invariant under permutation of the valid quotes. -/
theorem spreadPctOf_perm (vs vs' : List Quote) (h : List.Perm vs vs') :
    spreadPctOf (pricesOf vs) (confidencesOf vs) =
      spreadPctOf (pricesOf vs') (confidencesOf vs') := by
  have hlen : (pricesOf vs).length = (pricesOf vs').length :=
    (List.Perm.map _ h).length_eq
  simp only [spreadPctOf, hlen, finalPriceOf_perm vs vs' h, priceMinOf_perm vs vs' h,
    priceMaxOf_perm vs vs' h]

/-- The pre-rounding confidence is invariant under permutation. -/
theorem confidenceOf_perm (vs vs' : List Quote) (h : List.Perm vs vs') :
    confidenceOf (pricesOf vs) (confidencesOf vs) =
      confidenceOf (pricesOf vs') (confidencesOf vs') := by
  have hp : List.Perm (pricesOf vs) (pricesOf vs') := h.map _
  have hc : List.Perm (confidencesOf vs) (confidencesOf vs') := h.map _
  have hlen : (pricesOf vs).length = (pricesOf vs').length := hp.length_eq
  simp only [confidenceOf, hlen]
  split_ifs with h1
  · have hvslen : vs'.length = 1 := by
      simpa [pricesOf] using h1
    obtain ⟨q, hq⟩ := List.length_eq_one.mp hvslen
    have hq' : vs = [q] := List.perm_singleton.mp (by rw [← hq]; exact h)
    rw [hq', hq]
  · simp only [calculateConfidence, pymedian_perm _ _ hc, hlen,
      spreadPctOf_perm vs vs' h]

/-- C7: permuting the input quote sequence leaves every field of the result
unchanged except possibly `sources`; and whenever some quote is valid, the
`sources` list of each result is exactly the valid subset of its own input, in
input order. -/
theorem aggregate_perm_invariant (t : String) (c : ℤ) (qs qs' : List Quote)
    (hperm : List.Perm qs qs') :
    ((aggregatePrices t c qs).token_address = (aggregatePrices t c qs').token_address ∧
     (aggregatePrices t c qs).chain_id = (aggregatePrices t c qs').chain_id ∧
     (aggregatePrices t c qs).price_usd = (aggregatePrices t c qs').price_usd ∧
     (aggregatePrices t c qs).confidence = (aggregatePrices t c qs').confidence ∧
     (aggregatePrices t c qs).sources_count = (aggregatePrices t c qs').sources_count ∧
     (aggregatePrices t c qs).price_range = (aggregatePrices t c qs').price_range ∧
     (aggregatePrices t c qs).warnings = (aggregatePrices t c qs').warnings ∧
     (aggregatePrices t c qs).timestamp = (aggregatePrices t c qs').timestamp) ∧
    ((∃ q ∈ qs, validQuote q = true) →
      (aggregatePrices t c qs).sources = qs.filter validQuote ∧
      (aggregatePrices t c qs').sources = qs'.filter validQuote) := by
  have hfperm : List.Perm (qs.filter validQuote) (qs'.filter validQuote) :=
    hperm.filter _
  by_cases hE : qs.filter validQuote = []
  · have hE' : qs'.filter validQuote = [] := List.Perm.eq_nil (hE ▸ hfperm).symm
    constructor
    · simp [aggregatePrices, hE, hE', createErrorResult]
    · rintro ⟨q0, hq0, hv⟩
      have : q0 ∈ qs.filter validQuote := List.mem_filter.mpr ⟨hq0, hv⟩
      rw [hE] at this
      exact absurd this (List.not_mem_nil q0)
  · have hE' : qs'.filter validQuote ≠ [] :=
      fun h0 => hE (List.Perm.eq_nil (h0 ▸ hfperm))
    have hEf : (qs.filter validQuote).isEmpty = false := isEmpty_false_of_ne_nil _ hE
    have hEf' : (qs'.filter validQuote).isEmpty = false := isEmpty_false_of_ne_nil _ hE'
    constructor
    · refine ⟨?_, ?_, ?_, ?_, ?_, ?_, ?_, ?_⟩
      · simp [aggregatePrices, hEf, hEf']
      · simp [aggregatePrices, hEf, hEf']
      · simp only [aggregatePrices, hEf, hEf', Bool.false_eq_true, if_false]
        rw [finalPriceOf_perm _ _ hfperm]
      · simp only [aggregatePrices, hEf, hEf', Bool.false_eq_true, if_false]
        rw [confidenceOf_perm _ _ hfperm]
      · simp only [aggregatePrices, hEf, hEf', Bool.false_eq_true, if_false]
        rw [hfperm.length_eq]
      · simp only [aggregatePrices, hEf, hEf', Bool.false_eq_true, if_false]
        rw [priceMinOf_perm _ _ hfperm, priceMaxOf_perm _ _ hfperm,
          spreadPctOf_perm _ _ hfperm]
      · simp only [aggregatePrices, hEf, hEf', Bool.false_eq_true, if_false]
        rw [spreadPctOf_perm _ _ hfperm, hfperm.length_eq, hperm.length_eq]
      · simp [aggregatePrices, hEf, hEf']
    · intro _
      simp [aggregatePrices, hEf, hEf']

/-- Witness for C7: swapping a valid and an invalid quote changes only the
`sources` order, and both results list exactly their own valid subset. -/
theorem aggregate_perm_invariant_witness :
    List.Perm [(⟨"coingecko", some 100, some (9/10), none⟩ : Quote),
               ⟨"uniswap_v3", none, none, some "pool not found"⟩]
              [(⟨"uniswap_v3", none, none, some "pool not found"⟩ : Quote),
               ⟨"coingecko", some 100, some (9/10), none⟩] ∧
    ((aggregatePrices "0xabc" 1
        [(⟨"coingecko", some 100, some (9/10), none⟩ : Quote),
         ⟨"uniswap_v3", none, none, some "pool not found"⟩]).price_usd =
      (aggregatePrices "0xabc" 1
        [(⟨"uniswap_v3", none, none, some "pool not found"⟩ : Quote),
         ⟨"coingecko", some 100, some (9/10), none⟩]).price_usd ∧
     (aggregatePrices "0xabc" 1
        [(⟨"coingecko", some 100, some (9/10), none⟩ : Quote),
         ⟨"uniswap_v3", none, none, some "pool not found"⟩]).warnings =
      (aggregatePrices "0xabc" 1
        [(⟨"uniswap_v3", none, none, some "pool not found"⟩ : Quote),
         ⟨"coingecko", some 100, some (9/10), none⟩]).warnings) := by
  have hperm : List.Perm [(⟨"coingecko", some 100, some (9/10), none⟩ : Quote),
               ⟨"uniswap_v3", none, none, some "pool not found"⟩]
              [(⟨"uniswap_v3", none, none, some "pool not found"⟩ : Quote),
               ⟨"coingecko", some 100, some (9/10), none⟩] :=
    List.Perm.swap _ _ _
  obtain ⟨⟨_, _, hprice, _, _, _, hwarn, _⟩, _⟩ :=
    aggregate_perm_invariant "0xabc" 1 _ _ hperm
  exact ⟨hperm, hprice, hwarn⟩
